import Mathlib

/- Verification of the Erlang traffic library (Erlang.py): the offered-load
computation, the Erlang B blocking-probability loop, the Erlang C delay
probability, the waiting-time helper and the channel-dimensioning search,
embedded over exact rational arithmetic.  Python floats are idealised as
rationals; the float-overflow boundary of math.pow and of int-to-float
conversion is kept as an explicit threshold at the largest finite double. -/

namespace ErlangLib

/-- Python exceptions raised by the library: ValueError from input validation
(the InvalidArgument of the spec) and ZeroDivisionError from division. -/
inductive PyErr
  | invalidArgument
  | zeroDivision
deriving DecidableEq, Repr

/-- Python float results produced by the library: finite values (idealised as
rationals), the two infinities, and nan. -/
inductive PyFloat
  | finite (q : ℚ)
  | inf
  | negInf
  | nan
deriving DecidableEq, Repr

/-- Python division, which raises ZeroDivisionError on a zero divisor. -/
def pydiv (x y : ℚ) : Except PyErr ℚ :=
  if y = 0 then .error .zeroDivision else .ok (x / y)

/-- Python round(x, 4): round half to even at four decimal digits. -/
def round4 (x : ℚ) : ℚ :=
  let y : ℚ := x * 10000
  let f : ℤ := ⌊y⌋
  let r : ℚ := y - (f : ℚ)
  let n : ℤ :=
    if r < 1/2 then f else if 1/2 < r then f + 1 else if Even f then f else f + 1
  (n : ℚ) / 10000

/-- Erlang.calculate_erlang: traffic load in Erlangs from an hourly arrival
rate and per-call hold/talk seconds. -/
def calculate_erlang (arrival_rate mean_hold_time average_call_time : ℚ) :
    Except PyErr ℚ :=
  if arrival_rate < 0 ∨ mean_hold_time < 0 ∨ average_call_time < 0 then
    .error .invalidArgument
  else
    let total_time := (mean_hold_time + average_call_time) / 60
    .ok (round4 ((arrival_rate * total_time) / 60))

/-- The while-True loop of Erlang.calculate_erlang_b, with explicit fuel in
place of the source's unbounded loop; the state is (channel, previous_d,
previous_e), and each iteration computes the running Erlang B value
incrementally before testing it against the goal. -/
def erlangBLoop (erlangs block_level_goal : ℚ) : ℕ → ℕ → ℚ → ℚ → Option ℕ
  | 0, _, _, _ => none
  | fuel + 1, channel, previous_d, previous_e =>
    let x := (erlangs / (channel : ℚ)) * previous_d
    let block_percentage := x / (previous_e + x)
    if block_percentage < block_level_goal then some channel
    else erlangBLoop erlangs block_level_goal fuel (channel + 1) x (previous_e + x)

/-- Erlang.calculate_erlang_b: the channel-dimensioning search, returning the
channel count at which the running blocking value first drops below the goal. -/
def calculate_erlang_b (erlangs block_level_goal : ℚ) (fuel : ℕ) :
    Except PyErr (Option ℕ) :=
  if erlangs < 0 ∨ block_level_goal ≤ 0 ∨ 1 ≤ block_level_goal then
    .error .invalidArgument
  else .ok (erlangBLoop erlangs block_level_goal fuel 1 1 1)

/-- The for-loop of Erlang.calculate_blocking_probability: b = 1 + (k*b)/erlangs
for each k in the given list, raising ZeroDivisionError when erlangs = 0. -/
def blockingLoop (erlangs : ℚ) : List ℕ → ℚ → Except PyErr ℚ
  | [], b => .ok b
  | k :: ks, b => do
      let q ← pydiv ((k : ℚ) * b) erlangs
      blockingLoop erlangs ks (1 + q)

/-- Erlang.calculate_blocking_probability: Erlang B blocking probability via
the inverted recurrence, iterating k = 1..channels and returning 1/b. -/
def calculate_blocking_probability (erlangs : ℚ) (channels : ℕ) :
    Except PyErr ℚ :=
  if erlangs < 0 ∨ channels < 1 then .error .invalidArgument
  else do
    let b ← blockingLoop erlangs (List.range' 1 channels) 1
    pydiv 1 b

/-- Largest finite IEEE double, as a rational. -/
def maxFloat : ℚ := 2 ^ 1024 - 2 ^ 971

/-- Whether evaluating the k-th Poisson term of calculate_erlang_c overflows a
Python float: math.pow(erlangs, k) raising OverflowError, or math.factorial(k)
being too large to convert to float. -/
def termOverflows (erlangs : ℚ) (k : ℕ) : Bool :=
  decide (maxFloat < |erlangs ^ k|) || decide (maxFloat < (k.factorial : ℚ))

/-- Whether any term evaluated inside the try-block of calculate_erlang_c
overflows: the Poisson terms k = 0..channels, whose k = channels case also
covers the pow and factorial of the numerator. -/
def erlangCOverflow (erlangs : ℚ) : ℕ → Bool
  | 0 => termOverflows erlangs 0
  | k + 1 => erlangCOverflow erlangs k || termOverflows erlangs (k + 1)

/-- Poisson term erlangs^k / k!. -/
def poissonTerm (erlangs : ℚ) (k : ℕ) : ℚ := erlangs ^ k / (k.factorial : ℚ)

/-- Partial sum of the Poisson terms, k = 0..c. -/
def poissonSum (erlangs : ℚ) (c : ℕ) : ℚ :=
  (Finset.range (c + 1)).sum (poissonTerm erlangs)

/-- Erlang.calculate_erlang_c: delay probability.  Returns 1 when the load
meets or exceeds capacity; catches OverflowError from the series evaluation
and returns float infinity in that case; otherwise evaluates the direct
power/factorial formula. -/
def calculate_erlang_c (erlangs : ℚ) (channels : ℕ) : Except PyErr PyFloat :=
  if (channels : ℚ) ≤ erlangs then .ok (.finite 1)
  else if erlangCOverflow erlangs channels then .ok .inf
  else
    let numerator :=
      poissonTerm erlangs channels * ((channels : ℚ) / ((channels : ℚ) - erlangs))
    let denominator := poissonSum erlangs channels + numerator
    (pydiv numerator denominator).map .finite

/-- Erlang.calculate_waiting_time: expected waiting time derived from the
Erlang C result, infinite when the load meets or exceeds capacity. -/
def calculate_waiting_time (erlangs : ℚ) (channels : ℕ)
    (mean_service_time : ℚ) : Except PyErr PyFloat := do
  let pw ← calculate_erlang_c erlangs channels
  if erlangs < (channels : ℚ) then
    match pw with
    | .finite q =>
        pure (.finite (q / ((channels : ℚ) - erlangs) * mean_service_time))
    | .inf =>
        pure (if 0 < mean_service_time then .inf
              else if mean_service_time < 0 then .negInf else .nan)
    | .negInf =>
        pure (if 0 < mean_service_time then .negInf
              else if mean_service_time < 0 then .inf else .nan)
    | .nan => pure .nan
  else pure .inf

/-- The inverted Erlang B quantity computed by the blocking loop under exact
arithmetic: b 0 = 1 and b (k+1) = 1 + ((k+1) * b k) / erlangs. -/
def invErlangB (erlangs : ℚ) : ℕ → ℚ
  | 0 => 1
  | k + 1 => 1 + (((k + 1 : ℕ) : ℚ) * invErlangB erlangs k) / erlangs

/-- The Erlang B recurrence as written in the specification: B 0 = 1 and
B (k+1) = (load * B k) / ((k+1) + load * B k). -/
def erlangB_spec (load : ℚ) : ℕ → ℚ
  | 0 => 1
  | k + 1 =>
    (load * erlangB_spec load k) / (((k + 1 : ℕ) : ℚ) + load * erlangB_spec load k)

theorem invErlangB_ge_one (E : ℚ) (hE : 0 < E) : ∀ k, 1 ≤ invErlangB E k := by
  intro k
  induction k with
  | zero => simp [invErlangB]
  | succ k ih =>
    have h1 : 0 ≤ (((k + 1 : ℕ) : ℚ) * invErlangB E k) / E := by
      apply div_nonneg _ hE.le
      exact mul_nonneg (by positivity) (zero_le_one.trans ih)
    simp only [invErlangB]
    linarith

theorem invErlangB_pos (E : ℚ) (hE : 0 < E) (k : ℕ) : 0 < invErlangB E k :=
  zero_lt_one.trans_le (invErlangB_ge_one E hE k)

theorem invErlangB_lt_succ (E : ℚ) (hE : 0 < E) :
    ∀ k, invErlangB E k < invErlangB E (k + 1) := by
  intro k
  induction k with
  | zero =>
    simp only [invErlangB]
    have h1 : 0 < ((0 + 1 : ℕ) : ℚ) * (1 : ℚ) / E := by positivity
    linarith
  | succ k ih =>
    have hk : (0:ℚ) < invErlangB E k := invErlangB_pos E hE k
    have hk1 : (0:ℚ) < invErlangB E (k + 1) := invErlangB_pos E hE (k + 1)
    have key : ((k + 1 : ℕ) : ℚ) * invErlangB E k
        < ((k + 1 + 1 : ℕ) : ℚ) * invErlangB E (k + 1) := by
      have h1 : ((k + 1 : ℕ) : ℚ) * invErlangB E k
          < ((k + 1 : ℕ) : ℚ) * invErlangB E (k + 1) := by
        apply mul_lt_mul_of_pos_left ih
        positivity
      have h2 : ((k + 1 : ℕ) : ℚ) * invErlangB E (k + 1)
          < ((k + 1 + 1 : ℕ) : ℚ) * invErlangB E (k + 1) := by
        apply mul_lt_mul_of_pos_right _ hk1
        push_cast
        linarith
      linarith
    have hdiv : ((k + 1 : ℕ) : ℚ) * invErlangB E k / E
        < ((k + 1 + 1 : ℕ) : ℚ) * invErlangB E (k + 1) / E := by
      exact div_lt_div_of_pos_right key hE
    simp only [invErlangB] at hdiv ⊢
    linarith

theorem ok_bind {α β : Type} (v : α) (f : α → Except PyErr β) :
    (Except.ok v >>= f) = f v := rfl

theorem error_bind {α β : Type} (e : PyErr) (f : α → Except PyErr β) :
    ((Except.error e : Except PyErr α) >>= f) = Except.error e := rfl

theorem map_ok {α β : Type} (g : α → β) (v : α) :
    Except.map g (Except.ok v : Except PyErr α) = Except.ok (g v) := rfl

theorem blockingLoop_eq (E : ℚ) (hE : E ≠ 0) :
    ∀ (m j : ℕ),
      blockingLoop E (List.range' (j + 1) m) (invErlangB E j) =
        .ok (invErlangB E (j + m)) := by
  intro m
  induction m with
  | zero => intro j; simp [blockingLoop]
  | succ m ih =>
    intro j
    rw [List.range'_succ]
    simp only [blockingLoop, pydiv, if_neg hE, ok_bind]
    have harg : (1 : ℚ) + ((j + 1 : ℕ) : ℚ) * invErlangB E j / E =
        invErlangB E (j + 1) := by
      simp only [invErlangB]
    rw [harg]
    have h2 := ih (j + 1)
    have h3 : j + 1 + m = j + (m + 1) := by omega
    rw [h3] at h2
    exact h2

theorem cbp_ok (E : ℚ) (hE : 0 < E) (c : ℕ) (hc : 1 ≤ c) :
    calculate_blocking_probability E c = .ok (1 / invErlangB E c) := by
  have hne : E ≠ 0 := ne_of_gt hE
  have hb := blockingLoop_eq E hne c 0
  simp only [Nat.zero_add] at hb
  unfold calculate_blocking_probability
  rw [if_neg]
  · rw [show invErlangB E 0 = (1 : ℚ) from rfl] at hb
    rw [hb, ok_bind]
    unfold pydiv
    rw [if_neg (ne_of_gt (invErlangB_pos E hE c))]
  · rintro (h | h)
    · linarith
    · omega

theorem cbp_zero (c : ℕ) (hc : 1 ≤ c) :
    calculate_blocking_probability 0 c = .error .zeroDivision := by
  obtain ⟨m, rfl⟩ : ∃ m, c = m + 1 := ⟨c - 1, by omega⟩
  unfold calculate_blocking_probability
  rw [if_neg (by simp)]
  rw [List.range'_succ]
  simp only [blockingLoop, pydiv]
  norm_num [error_bind]

theorem erlangB_spec_eq_inv (E : ℚ) (hE : 0 < E) :
    ∀ k, erlangB_spec E k = 1 / invErlangB E k := by
  intro k
  induction k with
  | zero => simp [erlangB_spec, invErlangB]
  | succ k ih =>
    have hb : (0 : ℚ) < invErlangB E k := invErlangB_pos E hE k
    have hb1 : (0 : ℚ) < invErlangB E (k + 1) := invErlangB_pos E hE (k + 1)
    have hd1 : ((k + 1 : ℕ) : ℚ) + E * (1 / invErlangB E k) ≠ 0 := by positivity
    simp only [erlangB_spec, invErlangB] at hb1 ⊢
    rw [ih]
    rw [div_eq_div_iff hd1 (ne_of_gt hb1)]
    field_simp
    ring

theorem poissonTerm_zero (E : ℚ) : poissonTerm E 0 = 1 := by
  simp [poissonTerm]

theorem poissonSum_zero (E : ℚ) : poissonSum E 0 = 1 := by
  simp [poissonSum, Finset.sum_range_one, poissonTerm_zero]

theorem factorial_cast_pos (k : ℕ) : (0 : ℚ) < (k.factorial : ℚ) := by
  exact_mod_cast k.factorial_pos

theorem poissonTerm_succ (E : ℚ) (k : ℕ) :
    poissonTerm E (k + 1) = E * poissonTerm E k / ((k + 1 : ℕ) : ℚ) := by
  unfold poissonTerm
  rw [Nat.factorial_succ]
  have h1 : ((k.factorial : ℕ) : ℚ) ≠ 0 := ne_of_gt (factorial_cast_pos k)
  have h2 : ((k + 1 : ℕ) : ℚ) ≠ 0 := by positivity
  push_cast at h1 h2 ⊢
  field_simp
  ring

theorem poissonTerm_nonneg (E : ℚ) (hE : 0 ≤ E) (k : ℕ) : 0 ≤ poissonTerm E k := by
  unfold poissonTerm
  apply div_nonneg (pow_nonneg hE k) (factorial_cast_pos k).le

theorem poissonTerm_pos (E : ℚ) (hE : 0 < E) (k : ℕ) : 0 < poissonTerm E k := by
  unfold poissonTerm
  exact div_pos (pow_pos hE k) (factorial_cast_pos k)

theorem poissonSum_succ (E : ℚ) (c : ℕ) :
    poissonSum E (c + 1) = poissonSum E c + poissonTerm E (c + 1) := by
  unfold poissonSum
  rw [Finset.sum_range_succ]

theorem one_le_poissonSum (E : ℚ) (hE : 0 ≤ E) (c : ℕ) : 1 ≤ poissonSum E c := by
  unfold poissonSum
  calc (1 : ℚ) = poissonTerm E 0 := (poissonTerm_zero E).symm
    _ ≤ (Finset.range (c + 1)).sum (poissonTerm E) := by
        apply Finset.single_le_sum (fun i _ => poissonTerm_nonneg E hE i)
        exact Finset.mem_range.mpr (Nat.succ_pos c)

theorem poissonSum_pos (E : ℚ) (hE : 0 ≤ E) (c : ℕ) : 0 < poissonSum E c :=
  zero_lt_one.trans_le (one_le_poissonSum E hE c)

theorem poissonTerm_le_sum_succ (E : ℚ) (hE : 0 ≤ E) (m : ℕ) :
    poissonTerm E m ≤ poissonSum E (m + 1) := by
  unfold poissonSum
  apply Finset.single_le_sum (fun i _ => poissonTerm_nonneg E hE i)
  exact Finset.mem_range.mpr (by omega)

theorem key_ineq (E : ℚ) (hE : 0 ≤ E) (m : ℕ) :
    ((m + 1 : ℕ) : ℚ) * poissonTerm E (m + 1) ≤ E * poissonSum E (m + 1) := by
  have h1 : ((m + 1 : ℕ) : ℚ) * poissonTerm E (m + 1) = E * poissonTerm E m := by
    rw [poissonTerm_succ]
    have h2 : ((m + 1 : ℕ) : ℚ) ≠ 0 := by positivity
    field_simp
  rw [h1]
  exact mul_le_mul_of_nonneg_left (poissonTerm_le_sum_succ E hE m) hE

theorem erlangB_spec_eq_ratio (E : ℚ) (hE : 0 ≤ E) :
    ∀ k, erlangB_spec E k = poissonTerm E k / poissonSum E k := by
  intro k
  induction k with
  | zero => simp [erlangB_spec, poissonTerm_zero, poissonSum_zero]
  | succ k ih =>
    have hS : (0 : ℚ) < poissonSum E k := poissonSum_pos E hE k
    have hS1 : (0 : ℚ) < poissonSum E (k + 1) := poissonSum_pos E hE (k + 1)
    have ht : (0 : ℚ) ≤ poissonTerm E k := poissonTerm_nonneg E hE k
    have ht1 : (0 : ℚ) ≤ poissonTerm E (k + 1) := poissonTerm_nonneg E hE (k + 1)
    have hrel : E * poissonTerm E k = ((k + 1 : ℕ) : ℚ) * poissonTerm E (k + 1) := by
      rw [poissonTerm_succ]
      have h2 : ((k + 1 : ℕ) : ℚ) ≠ 0 := by positivity
      field_simp
    have hden : ((k + 1 : ℕ) : ℚ) + E * (poissonTerm E k / poissonSum E k) ≠ 0 := by
      positivity
    rw [poissonSum_succ] at hS1
    simp only [erlangB_spec]
    rw [ih, poissonSum_succ]
    rw [div_eq_div_iff hden (ne_of_gt hS1)]
    field_simp
    push_cast at hrel ⊢
    linear_combination poissonSum E k * hrel

theorem erlangBLoop_step (E goal : ℚ) (fuel m : ℕ) :
    erlangBLoop E goal (fuel + 1) (m + 1) (poissonTerm E m) (poissonSum E m) =
      if poissonTerm E (m + 1) / poissonSum E (m + 1) < goal then some (m + 1)
      else erlangBLoop E goal fuel (m + 1 + 1) (poissonTerm E (m + 1))
        (poissonSum E (m + 1)) := by
  have hx : E / ((m + 1 : ℕ) : ℚ) * poissonTerm E m = poissonTerm E (m + 1) := by
    rw [poissonTerm_succ]
    ring
  simp only [erlangBLoop]
  rw [hx, ← poissonSum_succ]

theorem erlangBLoop_correct (E goal : ℚ) (hE : 0 ≤ E) :
    ∀ fuel m c,
      erlangBLoop E goal fuel (m + 1) (poissonTerm E m) (poissonSum E m) = some c →
      m + 1 ≤ c ∧ erlangB_spec E c < goal ∧
        ∀ j, m + 1 ≤ j → j < c → goal ≤ erlangB_spec E j := by
  intro fuel
  induction fuel with
  | zero => intro m c h; simp [erlangBLoop] at h
  | succ fuel ih =>
    intro m c h
    rw [erlangBLoop_step] at h
    by_cases hlt : poissonTerm E (m + 1) / poissonSum E (m + 1) < goal
    · rw [if_pos hlt] at h
      obtain rfl : m + 1 = c := Option.some.inj h
      refine ⟨le_refl _, ?_, ?_⟩
      · rw [erlangB_spec_eq_ratio E hE]
        exact hlt
      · intro j h1 h2
        omega
    · rw [if_neg hlt] at h
      obtain ⟨h1, h2, h3⟩ := ih (m + 1) c h
      refine ⟨by omega, h2, ?_⟩
      intro j hj1 hj2
      rcases Nat.eq_or_lt_of_le hj1 with hj | hj
      · rw [← hj, erlangB_spec_eq_ratio E hE]
        exact not_lt.mp hlt
      · exact h3 j (by omega) hj2

theorem erlangBLoop_total (E goal : ℚ) :
    ∀ fuel m,
      (∃ n, m + 1 ≤ n ∧ n < m + 1 + fuel ∧
        poissonTerm E n / poissonSum E n < goal) →
      ∃ c, erlangBLoop E goal fuel (m + 1) (poissonTerm E m) (poissonSum E m) =
        some c := by
  intro fuel
  induction fuel with
  | zero =>
    rintro m ⟨n, h1, h2, _⟩
    omega
  | succ fuel ih =>
    rintro m ⟨n, h1, h2, h3⟩
    rw [erlangBLoop_step]
    by_cases hlt : poissonTerm E (m + 1) / poissonSum E (m + 1) < goal
    · exact ⟨m + 1, by rw [if_pos hlt]⟩
    · rw [if_neg hlt]
      apply ih (m + 1)
      refine ⟨n, ?_, by omega, h3⟩
      rcases Nat.eq_or_lt_of_le h1 with hn | hn
      · exact absurd (hn ▸ h3) hlt
      · omega

theorem ratio_lt_goal (E goal : ℚ) (hE : 0 ≤ E) (hg : 0 < goal) :
    ∃ n, 1 ≤ n ∧ poissonTerm E n / poissonSum E n < goal := by
  refine ⟨Nat.ceil (E / goal) + 1, by omega, ?_⟩
  set m : ℕ := Nat.ceil (E / goal) with hm
  have hn1 : E < ((m + 1 : ℕ) : ℚ) * goal := by
    have h1 : E / goal ≤ (m : ℚ) := Nat.le_ceil _
    have h2 : E / goal < ((m + 1 : ℕ) : ℚ) := by
      push_cast
      linarith
    exact (div_lt_iff₀ hg).mp h2
  have hS : (0 : ℚ) < poissonSum E (m + 1) := poissonSum_pos E hE (m + 1)
  rw [div_lt_iff₀ hS]
  have hk := key_ineq E hE m
  have hm1 : (0 : ℚ) < ((m + 1 : ℕ) : ℚ) := by positivity
  have h4 : E * poissonSum E (m + 1) <
      ((m + 1 : ℕ) : ℚ) * goal * poissonSum E (m + 1) :=
    mul_lt_mul_of_pos_right hn1 hS
  have h5 := hk.trans_lt h4
  rw [mul_assoc] at h5
  exact (mul_lt_mul_left hm1).mp h5

theorem eval_cbp_one_one : calculate_blocking_probability 1 1 = .ok (1/2) := by
  rw [cbp_ok 1 one_pos 1 le_rfl]
  norm_num [invErlangB]

theorem eval_cbp_one_two : calculate_blocking_probability 1 2 = .ok (1/5) := by
  rw [cbp_ok 1 one_pos 2 (by norm_num)]
  norm_num [invErlangB]

theorem eval_offered_load : calculate_erlang 100 0 180 = .ok 5 := by
  norm_num [calculate_erlang, round4]

theorem eval_erlang_b_run : calculate_erlang_b 5 (1/100) 11 = .ok (some 11) := by
  norm_num [calculate_erlang_b, erlangBLoop]

theorem eval_erlang_c_neg : calculate_erlang_c (-1) 1 = .ok (.finite 1) := by
  norm_num [calculate_erlang_c, erlangCOverflow, termOverflows, maxFloat,
    poissonTerm, poissonSum, pydiv, Finset.sum_range_succ, Nat.factorial, map_ok]

theorem eval_erlang_c_one_two : calculate_erlang_c 1 2 = .ok (.finite (2/7)) := by
  norm_num [calculate_erlang_c, erlangCOverflow, termOverflows, maxFloat,
    poissonTerm, poissonSum, pydiv, Finset.sum_range_succ, Nat.factorial, map_ok]

theorem eval_waiting_time_neg : calculate_waiting_time (-1) 1 2 = .ok (.finite 1) := by
  unfold calculate_waiting_time
  rw [eval_erlang_c_neg, ok_bind]
  norm_num
  rfl

theorem termOverflows_imp (E : ℚ) (k : ℕ) (h : termOverflows E k = true) :
    erlangCOverflow E k = true := by
  cases k with
  | zero => exact h
  | succ k => simp [erlangCOverflow, h]

theorem erlangCOverflow_mono (E : ℚ) (k : ℕ) (h : erlangCOverflow E k = true) :
    ∀ n, erlangCOverflow E (k + n) = true := by
  intro n
  induction n with
  | zero => exact h
  | succ n ih =>
    show erlangCOverflow E ((k + n) + 1) = true
    simp [erlangCOverflow, ih]

theorem overflow_199_200 : erlangCOverflow 199 200 = true := by
  have h1 : termOverflows 199 135 = true := by
    unfold termOverflows
    simp only [Bool.or_eq_true, decide_eq_true_eq]
    left
    rw [abs_of_nonneg (by positivity)]
    norm_num [maxFloat]
  exact erlangCOverflow_mono 199 135 (termOverflows_imp 199 135 h1) 65

/-- C2 (amended): the hourly offered-load scenario arrivalRatePerHour = 100,
meanHoldTimeSeconds = 0, avgCallTimeSeconds = 180 returns exactly 5 Erlangs
(180 seconds per call is 1/20 hour, and 100 calls per hour times 1/20 hour
is 5), the rounding to 4 decimal digits being the identity here. -/
theorem offered_load_scenario : calculate_erlang 100 0 180 = .ok 5 :=
  eval_offered_load

/-- C2 counterexample: the claim asserts this scenario returns approximately
0.0833 Erlangs; the code returns exactly 5, which differs from 0.0833 by more
than 4, so the claim as stated is false. -/
theorem offered_load_scenario_counterexample :
    calculate_erlang 100 0 180 = .ok 5 ∧ (4 : ℚ) < |5 - 833/10000| :=
  ⟨eval_offered_load, by
    rw [abs_of_nonneg (by norm_num : (0 : ℚ) ≤ 5 - 833/10000)]
    norm_num⟩

/-- C3: for every channels ≥ 1, calculate_blocking_probability applied to
load 0 raises ZeroDivisionError (its loop divides by erlangs), instead of
returning 0 as the claim and the specification require. -/
theorem blocking_probability_zero_load_raises (c : ℕ) (hc : 1 ≤ c) :
    calculate_blocking_probability 0 c = .error .zeroDivision :=
  cbp_zero c hc

/-- C3 witness: the concrete failing input load = 0, channels = 1. -/
theorem blocking_probability_zero_load_raises_witness :
    calculate_blocking_probability 0 1 = .error .zeroDivision :=
  blocking_probability_zero_load_raises 1 le_rfl

/-- C5: for every load > 0 and channels ≥ 1 the value computed by
calculate_blocking_probability equals the specification's Erlang B recurrence
evaluated at k = channels, under exact arithmetic. -/
theorem blocking_probability_refines_spec (E : ℚ) (hE : 0 < E) (c : ℕ)
    (hc : 1 ≤ c) :
    calculate_blocking_probability E c = .ok (erlangB_spec E c) := by
  rw [cbp_ok E hE c hc, erlangB_spec_eq_inv E hE c]

/-- C5 witness: the refinement instantiated at load 2 and 3 channels. -/
theorem blocking_probability_refines_spec_witness :
    calculate_blocking_probability 2 3 = .ok (erlangB_spec 2 3) :=
  blocking_probability_refines_spec 2 two_pos 3 (by norm_num)

/-- C7: for fixed load > 0 the blocking probability returned by
calculate_blocking_probability strictly decreases when the channel count
increases by one. -/
theorem blocking_probability_strict_anti (E : ℚ) (hE : 0 < E) (c : ℕ)
    (hc : 1 ≤ c) (x y : ℚ)
    (hx : calculate_blocking_probability E c = .ok x)
    (hy : calculate_blocking_probability E (c + 1) = .ok y) : y < x := by
  rw [cbp_ok E hE c hc] at hx
  rw [cbp_ok E hE (c + 1) (by omega)] at hy
  obtain rfl : 1 / invErlangB E c = x := Except.ok.inj hx
  obtain rfl : 1 / invErlangB E (c + 1) = y := Except.ok.inj hy
  exact one_div_lt_one_div_of_lt (invErlangB_pos E hE c) (invErlangB_lt_succ E hE c)

/-- C7 witness: at load 1, the blocking probability drops from 1/2 at one
channel to 1/5 at two channels. -/
theorem blocking_probability_strict_anti_witness : (1 : ℚ)/5 < 1/2 :=
  blocking_probability_strict_anti 1 one_pos 1 le_rfl (1/2) (1/5)
    eval_cbp_one_one eval_cbp_one_two

/-- C8: whenever calculate_blocking_probability returns a value for load ≥ 0
and channels ≥ 1, that value lies in the closed interval [0, 1]. -/
theorem blocking_probability_in_unit_interval (E : ℚ) (c : ℕ) (x : ℚ)
    (hE : 0 ≤ E) (hc : 1 ≤ c)
    (hx : calculate_blocking_probability E c = .ok x) : 0 ≤ x ∧ x ≤ 1 := by
  rcases eq_or_lt_of_le hE with h0 | hpos
  · rw [← h0, cbp_zero c hc] at hx
    exact absurd hx (by simp)
  · rw [cbp_ok E hpos c hc] at hx
    obtain rfl : 1 / invErlangB E c = x := Except.ok.inj hx
    have h1 : 1 ≤ invErlangB E c := invErlangB_ge_one E hpos c
    have h2 : 0 < invErlangB E c := invErlangB_pos E hpos c
    constructor
    · positivity
    · rw [div_le_one h2]
      exact h1

/-- C8 witness: the bound instantiated at load 1, one channel, value 1/2. -/
theorem blocking_probability_in_unit_interval_witness :
    (0 : ℚ) ≤ 1/2 ∧ (1 : ℚ)/2 ≤ 1 :=
  blocking_probability_in_unit_interval 1 1 (1/2) zero_le_one le_rfl
    eval_cbp_one_one

/-- C10: for every goal in (0,1) the dimensioning search at load 0 terminates
on its first iteration (any fuel of at least one step suffices) and returns
channel count 1 without raising. -/
theorem dimensioning_zero_load (goal : ℚ) (hg0 : 0 < goal) (hg1 : goal < 1)
    (fuel : ℕ) (hf : 1 ≤ fuel) :
    calculate_erlang_b 0 goal fuel = .ok (some 1) := by
  obtain ⟨f, rfl⟩ : ∃ f, fuel = f + 1 := ⟨fuel - 1, by omega⟩
  unfold calculate_erlang_b
  rw [if_neg (by rintro (h | h | h) <;> linarith)]
  norm_num [erlangBLoop, hg0]

/-- C10 witness: goal 1/2 with a single unit of fuel already returns 1. -/
theorem dimensioning_zero_load_witness :
    calculate_erlang_b 0 (1/2) 1 = .ok (some 1) :=
  dimensioning_zero_load (1/2) (by norm_num) (by norm_num) 1 le_rfl

/-- C1 (amended): for 0 ≤ load < channels, when an intermediate term of the
Erlang C computation overflows, calculate_erlang_c catches the OverflowError
and returns float infinity — not the DelayProbability = 1 stated by the
claim, though indeed not a propagated numeric error either. -/
theorem erlang_c_overflow_saturates_to_inf (E : ℚ) (c : ℕ) (hE : 0 ≤ E)
    (hlt : E < (c : ℚ)) (hov : erlangCOverflow E c = true) :
    calculate_erlang_c E c = .ok PyFloat.inf := by
  unfold calculate_erlang_c
  rw [if_neg (not_le.mpr hlt), if_pos hov]

/-- C1 witness: the overflow branch taken at load 199 with 200 channels. -/
theorem erlang_c_overflow_saturates_to_inf_witness :
    calculate_erlang_c 199 200 = .ok PyFloat.inf :=
  erlang_c_overflow_saturates_to_inf 199 200 (by norm_num)
    (by push_cast; norm_num) overflow_199_200

/-- C1 counterexample: at load 199 and 200 channels the series term 199^135
already exceeds the largest finite float, and calculate_erlang_c returns
infinity rather than the claimed DelayProbability = 1. -/
theorem erlang_c_overflow_counterexample :
    (0 : ℚ) ≤ 199 ∧ (199 : ℚ) < ((200 : ℕ) : ℚ) ∧
    erlangCOverflow 199 200 = true ∧
    calculate_erlang_c 199 200 = .ok PyFloat.inf ∧
    calculate_erlang_c 199 200 ≠ .ok (PyFloat.finite 1) := by
  have hres : calculate_erlang_c 199 200 = .ok PyFloat.inf := by
    unfold calculate_erlang_c
    rw [if_neg (by push_cast; norm_num), if_pos overflow_199_200]
  refine ⟨by norm_num, by push_cast; norm_num, overflow_199_200, hres, ?_⟩
  rw [hres]
  simp

/-- C4 (amended): the hourly offered-load, Erlang B blocking-probability and
channel-dimensioning entry points reject a negative load (and a channel
count below 1 where they take one) with InvalidArgument, but
calculate_erlang_c and calculate_waiting_time perform no validation and
silently return values on a negative load. -/
theorem entry_point_validation :
    (∀ a h t : ℚ, a < 0 ∨ h < 0 ∨ t < 0 →
      calculate_erlang a h t = .error .invalidArgument) ∧
    (∀ (E : ℚ) (c : ℕ), E < 0 ∨ c < 1 →
      calculate_blocking_probability E c = .error .invalidArgument) ∧
    (∀ (E g : ℚ) (fuel : ℕ), E < 0 →
      calculate_erlang_b E g fuel = .error .invalidArgument) ∧
    calculate_erlang_c (-1) 1 = .ok (.finite 1) ∧
    calculate_waiting_time (-1) 1 2 = .ok (.finite 1) := by
  refine ⟨?_, ?_, ?_, eval_erlang_c_neg, eval_waiting_time_neg⟩
  · intro a h t hneg
    unfold calculate_erlang
    rw [if_pos hneg]
  · intro E c hneg
    unfold calculate_blocking_probability
    rw [if_pos hneg]
  · intro E g fuel hneg
    unfold calculate_erlang_b
    rw [if_pos (Or.inl hneg)]

/-- C4 witness: the three validating entry points each reject load −1. -/
theorem entry_point_validation_witness :
    calculate_erlang (-1) 0 0 = .error PyErr.invalidArgument ∧
    calculate_blocking_probability (-1) 1 = .error PyErr.invalidArgument ∧
    calculate_erlang_b (-1) (1/2) 1 = .error PyErr.invalidArgument :=
  ⟨entry_point_validation.1 (-1) 0 0 (Or.inl (by norm_num)),
   entry_point_validation.2.1 (-1) 1 (Or.inl (by norm_num)),
   entry_point_validation.2.2.1 (-1) (1/2) 1 (by norm_num)⟩

/-- C4 counterexample: calculate_erlang_c accepts the negative load −1 with
one channel and returns the value 1.0 instead of failing with
InvalidArgument, refuting the claim that every entry point validates. -/
theorem entry_point_validation_counterexample :
    calculate_erlang_c (-1) 1 = .ok (.finite 1) ∧
    calculate_erlang_c (-1) 1 ≠ .error PyErr.invalidArgument := by
  refine ⟨eval_erlang_c_neg, ?_⟩
  rw [eval_erlang_c_neg]
  simp

/-- C6: for every load ≥ 0 and goal in (0,1), the channel-dimensioning search
returns the smallest channel count whose Erlang B blocking probability is
strictly below the goal: any count returned (for any fuel standing in for the
source's unbounded while-loop) satisfies this minimality, and some fuel does
make the search return a count. -/
theorem dimensioning_returns_least_channel (E goal : ℚ) (hE : 0 ≤ E)
    (hg0 : 0 < goal) (hg1 : goal < 1) :
    (∀ fuel c, calculate_erlang_b E goal fuel = .ok (some c) →
        1 ≤ c ∧ erlangB_spec E c < goal ∧
          ∀ j, 1 ≤ j → j < c → goal ≤ erlangB_spec E j) ∧
    ∃ fuel c, calculate_erlang_b E goal fuel = .ok (some c) := by
  have hval : ¬(E < 0 ∨ goal ≤ 0 ∨ 1 ≤ goal) := by
    rintro (h | h | h) <;> linarith
  constructor
  · intro fuel c h
    unfold calculate_erlang_b at h
    rw [if_neg hval] at h
    have h2 : erlangBLoop E goal fuel 1 1 1 = some c := Except.ok.inj h
    have h3 : erlangBLoop E goal fuel (0 + 1) (poissonTerm E 0)
        (poissonSum E 0) = some c := by
      rw [poissonTerm_zero, poissonSum_zero]
      exact h2
    obtain ⟨ha, hb, hc⟩ := erlangBLoop_correct E goal hE fuel 0 c h3
    exact ⟨ha, hb, fun j hj1 hj2 => hc j hj1 hj2⟩
  · obtain ⟨n, hn1, hn3⟩ := ratio_lt_goal E goal hE hg0
    obtain ⟨c, hc⟩ := erlangBLoop_total E goal n 0 ⟨n, by omega, by omega, hn3⟩
    refine ⟨n, c, ?_⟩
    unfold calculate_erlang_b
    rw [if_neg hval]
    rw [poissonTerm_zero, poissonSum_zero] at hc
    exact congrArg Except.ok hc

/-- C6 witness: at load 5 and goal 1/100, running the search with fuel 11
returns 11 channels; instantiating the theorem there shows the blocking
probability is below 1/100 at 11 channels but not yet at 10. -/
theorem dimensioning_returns_least_channel_witness :
    erlangB_spec 5 11 < 1/100 ∧ (1/100 : ℚ) ≤ erlangB_spec 5 10 := by
  have h := (dimensioning_returns_least_channel 5 (1/100) (by norm_num)
    (by norm_num) (by norm_num)).1 11 11 eval_erlang_b_run
  exact ⟨h.2.1, h.2.2 10 (by norm_num) (by norm_num)⟩

/-- C9: for every valid input with 0 ≤ load < channels, whenever
calculate_blocking_probability and calculate_erlang_c both return values at
the same (load, channels), the Erlang C delay probability is at least the
Erlang B blocking probability. -/
theorem erlang_c_ge_erlang_b (E : ℚ) (c : ℕ) (B C : ℚ) (hE : 0 ≤ E)
    (hlt : E < (c : ℚ))
    (hB : calculate_blocking_probability E c = .ok B)
    (hC : calculate_erlang_c E c = .ok (.finite C)) : B ≤ C := by
  have hc0 : (0 : ℚ) < (c : ℚ) := lt_of_le_of_lt hE hlt
  have hc1 : 1 ≤ c := by
    have hne : c ≠ 0 := by
      rintro rfl
      norm_num at hc0
    omega
  rcases eq_or_lt_of_le hE with h0 | hEpos
  · rw [← h0, cbp_zero c hc1] at hB
    exact absurd hB (by simp)
  rw [cbp_ok E hEpos c hc1] at hB
  obtain rfl : 1 / invErlangB E c = B := Except.ok.inj hB
  have hBval : 1 / invErlangB E c = poissonTerm E c / poissonSum E c := by
    rw [← erlangB_spec_eq_inv E hEpos c]
    exact erlangB_spec_eq_ratio E hE c
  unfold calculate_erlang_c at hC
  rw [if_neg (not_le.mpr hlt)] at hC
  by_cases hov : erlangCOverflow E c
  · rw [if_pos hov] at hC
    exact absurd hC (by simp)
  · rw [if_neg hov] at hC
    simp only [pydiv] at hC
    by_cases hden : poissonSum E c +
        poissonTerm E c * ((c : ℚ) / ((c : ℚ) - E)) = 0
    · rw [if_pos hden] at hC
      exact absurd hC (by simp [Except.map])
    · rw [if_neg hden] at hC
      rw [map_ok] at hC
      have hfin := Except.ok.inj hC
      have hCval : (poissonTerm E c * ((c : ℚ) / ((c : ℚ) - E))) /
          (poissonSum E c + poissonTerm E c * ((c : ℚ) / ((c : ℚ) - E))) = C := by
        injection hfin
      subst hCval
      rw [hBval]
      have ht : 0 < poissonTerm E c := poissonTerm_pos E hEpos c
      have hS : 0 < poissonSum E c := poissonSum_pos E hE c
      have hcE : 0 < (c : ℚ) - E := by linarith
      have hdenpos : 0 < poissonSum E c +
          poissonTerm E c * ((c : ℚ) / ((c : ℚ) - E)) := by positivity
      rw [div_le_div_iff₀ hS hdenpos]
      have hkey : (c : ℚ) * poissonTerm E c ≤ E * poissonSum E c := by
        obtain ⟨m, rfl⟩ : ∃ m, c = m + 1 := ⟨c - 1, by omega⟩
        exact key_ineq E hE m
      have hexpand : poissonTerm E c * ((c : ℚ) / ((c : ℚ) - E)) * poissonSum E c
          - poissonTerm E c * (poissonSum E c +
            poissonTerm E c * ((c : ℚ) / ((c : ℚ) - E)))
          = (poissonTerm E c / ((c : ℚ) - E)) *
            (E * poissonSum E c - (c : ℚ) * poissonTerm E c) := by
        field_simp
        ring
      have h7 : 0 ≤ (poissonTerm E c / ((c : ℚ) - E)) *
          (E * poissonSum E c - (c : ℚ) * poissonTerm E c) :=
        mul_nonneg (by positivity) (by linarith)
      linarith

/-- C9 witness: at load 1 with two channels, blocking probability 1/5 and
delay probability 2/7 satisfy the inequality. -/
theorem erlang_c_ge_erlang_b_witness : (1 : ℚ)/5 ≤ 2/7 :=
  erlang_c_ge_erlang_b 1 2 (1/5) (2/7) zero_le_one (by push_cast; norm_num)
    eval_cbp_one_two eval_erlang_c_one_two
